import Mathlib

/-!
Shallow embedding of the PageRank engine from `src/lib.rs`
(crate `rusty_index`, struct `Pagerank<T>`).

Modelling conventions:
* `f64` scores are modelled as exact rationals `ℚ`; the decimal literals of
  the source (`0.85`, `0.01`) are taken at their decimal value.  All claims
  settled here are claims about the algorithm's structure; every concrete
  comparison with the threshold in the verified runs has a margin around
  `10^-3`, far above `f64` rounding error.
* The only place the source leaves the rationals is the returned metric
  `convergence.sqrt() / k`.  Its value is kept symbolically as the pair
  (sum of squares, denominator) wrapped in `MetricValue`, whose comparison
  operations implement the IEEE-754 semantics of `sqrt(S)/k` exactly:
  with `S ≥ 0`, the value is NaN when `S = 0 ∧ k = 0` (0/0), `+∞` when
  `S > 0 ∧ k = 0`, and the nonnegative real `√S / k` otherwise; every
  comparison involving NaN is false.
* `HashMap<T, usize>` (`node_positions`) is modelled as an association
  list with `List.lookup`; the source only ever inserts fresh keys and
  looks keys up, for which the two structures agree.
* Rust's stable `sort_by` with the descending comparator is modelled by
  Mathlib's stable `List.insertionSort` with the relation `b.2 ≤ a.2`:
  on a total preorder every stable sort produces the same list.
* `&mut self` methods are state-passing functions; a method that mutates
  and returns a value returns a pair.
-/

attribute [local semireducible] Rat.mul Rat.inv Rat.add Rat.sub

/-- `GraphNode<T>` of the source: identifier, incoming-edge source
positions, outgoing-edge count, current score. -/
structure GraphNode (T : Type) where
  node : T
  incoming_edges : List ℕ
  outgoing_edges : ℕ
  score : ℚ
deriving DecidableEq

/-- `Pagerank<T>` of the source: damping factor, node store, edge counter,
identifier-to-position map, cached count of nodes with incoming edges. -/
structure Pagerank (T : Type) where
  damping : ℚ
  nodes : List (GraphNode T)
  edges : ℕ
  node_positions : List (T × ℕ)
  nodes_with_incoming : Option ℕ
deriving DecidableEq

/-- `Pagerank::new()`: empty graph, damping `0.85`. -/
def Pagerank.new {T : Type} : Pagerank T :=
  { damping := 85 / 100
    nodes := []
    edges := 0
    node_positions := []
    nodes_with_incoming := none }

/-- `set_damping_factor`: rejects a factor `≥ 100` (returning before any
mutation), otherwise sets `damping = factor / 100`. -/
def Pagerank.set_damping_factor {T : Type} (g : Pagerank T) (factor : ℕ) :
    Except String (Pagerank T) :=
  if 100 ≤ factor then
    .error "\x7bval\x7d needs to be bellow 100"
  else
    .ok { g with damping := (factor : ℚ) / 100 }

/-- `get_or_create_node`: position of an existing identifier, or append a
fresh node (outgoing 0, no incoming, score `1 − damping`), record its
position, and invalidate the cached incoming-node count. -/
def Pagerank.get_or_create_node {T : Type} [DecidableEq T]
    (g : Pagerank T) (node : T) : ℕ × Pagerank T :=
  match g.node_positions.lookup node with
  | some value => (value, g)
  | none =>
      let id := g.nodes.length
      (id,
        { g with
          nodes := g.nodes ++ [{ node := node, incoming_edges := [],
                                 outgoing_edges := 0,
                                 score := 1 - g.damping }]
          node_positions := (node, id) :: g.node_positions
          nodes_with_incoming := none })

/-- `Vec` write `nodes[i] = f nodes[i]`, by structural recursion. -/
def modifyIdx {α : Type} : List α → ℕ → (α → α) → List α
  | [], _, _ => []
  | x :: xs, 0, f => f x :: xs
  | x :: xs, n + 1, f => x :: modifyIdx xs n f

/-- `self.nodes[source].outgoing_edges += 1` on a single node record. -/
def bumpOutgoing {T : Type} (n : GraphNode T) : GraphNode T :=
  { n with outgoing_edges := n.outgoing_edges + 1 }

/-- `self.nodes[target].incoming_edges.push(source)` on a single node
record. -/
def pushIncoming {T : Type} (s : ℕ) (n : GraphNode T) : GraphNode T :=
  { n with incoming_edges := n.incoming_edges ++ [s] }

/-- `add_edge`: resolve both endpoints (creating nodes as needed), bump the
source's outgoing count, push the source position on the target's incoming
list, bump the edge counter. -/
def Pagerank.add_edge {T : Type} [DecidableEq T]
    (g : Pagerank T) (source target : T) : Pagerank T :=
  let s := g.get_or_create_node source
  let t := s.2.get_or_create_node target
  let g₃ := { t.2 with nodes := modifyIdx t.2.nodes s.1 bumpOutgoing }
  let g₄ := { g₃ with nodes := modifyIdx g₃.nodes t.1 (pushIncoming s.1) }
  { g₄ with edges := g₄.edges + 1 }

/-- `len_nodes_with_incoming_edges`: cached count of nodes that have at
least one incoming edge; computed by the source's fold on a cache miss and
then memoised. -/
def Pagerank.len_nodes_with_incoming_edges {T : Type} (g : Pagerank T) :
    ℕ × Pagerank T :=
  match g.nodes_with_incoming with
  | some n => (n, g)
  | none =>
      let total := g.nodes.foldl
        (fun total node => if 0 < node.incoming_edges.length then total + 1 else total) 0
      (total, { g with nodes_with_incoming := some total })

/-- The true (uncached) number of nodes with at least one incoming edge. -/
def trueIncomingCount {T : Type} (g : Pagerank T) : ℕ :=
  g.nodes.countP (fun n => decide (0 < n.incoming_edges.length))

/-- One incoming contribution `nodes[p].score / nodes[p].outgoing_edges`
read from a node list (the source indexes the pre-sweep `self.nodes`). -/
def contribution {T : Type} (ns : List (GraphNode T)) (p : ℕ) : ℚ :=
  match ns[p]? with
  | some m => m.score / (m.outgoing_edges : ℚ)
  | none => 0

/-- Result of `calculate_step`: the post-call state, the sum of squared
score differences, and the denominator used (cached or recomputed count of
nodes with incoming edges).  The `f64` the source returns is
`sqrt(sumSq) / denom`. -/
structure StepResult (T : Type) where
  graph : Pagerank T
  sumSq : ℚ
  denom : ℕ
deriving DecidableEq

/-- The body of the source's per-node closure: the clone of `n` whose
score is `(1 − damping) + damping · Σ over incoming p of
old_score[p]/outgoing[p]`, every contribution read from the pre-sweep
`g.nodes` (Jacobi semantics). -/
def updatedNode {T : Type} (g : Pagerank T) (n : GraphNode T) : GraphNode T :=
  { n with score :=
      (1 - g.damping) +
        g.damping * (n.incoming_edges.map (fun p => contribution g.nodes p)).sum }

/-- `calculate_step`: clone the nodes, give every clone the updated score
(reading contributions from the pre-sweep nodes), sum the squared
differences, install the clones, and read the (possibly cached)
incoming-node count for the denominator. -/
def Pagerank.calculate_step {T : Type} (g : Pagerank T) : StepResult T :=
  let current_iter := g.nodes.map (updatedNode g)
  let convergence : ℚ :=
    ((g.nodes.zip current_iter).map
      (fun pr => (pr.1.score - pr.2.score) * (pr.1.score - pr.2.score))).sum
  let g' := { g with nodes := current_iter }
  let kg := g'.len_nodes_with_incoming_edges
  { graph := kg.2, sumSq := convergence, denom := kg.1 }

/-- IEEE-754 class of the returned metric `sqrt(S)/k` (`S ≥ 0` in every
run): `.nan` is `0.0/0.0` (or `sqrt` of a negative), `.posInf` is a
positive numerator over a zero denominator, `.fin S k` is the ordinary
nonnegative real `√S / k` with `k > 0`. -/
inductive MetricValue where
  | nan : MetricValue
  | posInf : MetricValue
  | fin : ℚ → ℕ → MetricValue
deriving DecidableEq

/-- Build the metric value `sqrt(S)/k` returned by `calculate_step`. -/
def mkMetric (S : ℚ) (k : ℕ) : MetricValue :=
  if k = 0 then (if 0 < S then .posInf else .nan) else .fin S k

/-- IEEE comparison `sqrt(S)/k < t`: false for NaN and `+∞`; for the
finite class (`k > 0`, `S ≥ 0`) it is `√S < t·k`, i.e.
`0 < t ∧ S < (t·k)²`. -/
def MetricValue.ltQ : MetricValue → ℚ → Bool
  | .nan, _ => false
  | .posInf, _ => false
  | .fin S k, t => decide (0 ≤ S ∧ 0 < t ∧ S < (t * k) * (t * k))

/-- IEEE comparison `sqrt(S)/k ≥ 0`: false for NaN, true for `+∞` and for
every finite value of the form `√S / k` with `S ≥ 0`. -/
def MetricValue.nonneg : MetricValue → Bool
  | .nan => false
  | .posInf => true
  | .fin S _ => decide (0 ≤ S)

/-- The `f64` value `calculate_step` hands back. -/
def StepResult.metric {T : Type} (r : StepResult T) : MetricValue :=
  mkMetric r.sumSq r.denom

/-- `calculate_with_convergence`, with explicit fuel standing in for the
source's unbounded `loop`: run `calculate_step`; stop (returning the
iteration counter and the final state) as soon as a step's metric is below
the threshold, else count the step and continue. -/
def Pagerank.calculate_with_convergence {T : Type} :
    ℕ → Pagerank T → ℚ → Option (ℕ × Pagerank T)
  | 0, _, _ => none
  | fuel + 1, g, convergence =>
      let r := g.calculate_step
      if r.metric.ltQ convergence then some (0, r.graph)
      else
        match Pagerank.calculate_with_convergence fuel r.graph convergence with
        | some p => some (p.1 + 1, p.2)
        | none => none

/-- `calculate()`: `calculate_with_convergence(0.01)`. -/
def Pagerank.calculate {T : Type} (fuel : ℕ) (g : Pagerank T) :
    Option (ℕ × Pagerank T) :=
  Pagerank.calculate_with_convergence fuel g (1 / 100)

/-- `len()`: number of nodes. -/
def Pagerank.len {T : Type} (g : Pagerank T) : ℕ :=
  g.nodes.length

/-- `nodes()` (the ranked view, named `ranked_nodes` in the design
document because `nodes` is the store's field name): every identifier
paired with its current score, stably sorted by descending score. -/
def Pagerank.ranked_nodes {T : Type} (g : Pagerank T) : List (T × ℚ) :=
  List.insertionSort (fun a b => b.2 ≤ a.2)
    (g.nodes.map (fun n => (n.node, n.score)))

/-- Fold a list of edges into a fresh graph with `add_edge`. -/
def buildGraph {T : Type} [DecidableEq T] (es : List (T × T)) : Pagerank T :=
  es.foldl (fun g e => g.add_edge e.1 e.2) Pagerank.new

/-- The canonical 11-node example graph of the repository's
`test_pagerank_example` (the Wikipedia PageRank illustration). -/
def exampleEdges : List (String × String) :=
  [("D", "A"), ("D", "B"), ("B", "C"), ("C", "B"),
   ("E", "B"), ("E", "F"), ("F", "B"), ("F", "E"),
   ("G", "B"), ("G", "E"), ("H", "B"), ("H", "E"),
   ("I", "B"), ("I", "E"), ("J", "E"), ("K", "E")]

/-- The example graph itself. -/
def examplePR : Pagerank String := buildGraph exampleEdges

/-- The state after `i` calls to `calculate_step` (keeping only the
post-call graphs). -/
def stepIter {T : Type} (g : Pagerank T) : ℕ → Pagerank T
  | 0 => g
  | i + 1 => (stepIter g i).calculate_step.graph

/-- A two-node graph driven into a stale cached incoming-node count:
`add_edge a b`, one step (which fills the cache with 1), then
`add_edge b a` between the two existing nodes, which gives node `a` its
first incoming edge without invalidating the cache. -/
def staleExample : Pagerank String :=
  ((Pagerank.new.add_edge "a" "b").calculate_step).graph.add_edge "b" "a"

/-- The stream of endpoint identifiers of an edge list, sources and
targets interleaved in call order. -/
def endpointStream {T : Type} (es : List (T × T)) : List T :=
  es.foldr (fun e acc => e.1 :: e.2 :: acc) []

/-- Append an identifier to an accumulator unless it is already there. -/
def addFirstSeen {T : Type} [DecidableEq T] (acc : List T) (x : T) : List T :=
  if x ∈ acc then acc else acc ++ [x]

/-- The distinct identifiers of a stream in first-seen order. -/
def firstSeen {T : Type} [DecidableEq T] (l : List T) : List T :=
  l.foldl addFirstSeen []

/-- Structural well-formedness of a graph state: every position recorded
in the identifier map is in range, and every position on an incoming list
designates a node whose outgoing count is at least 1 (so the division
`score / outgoing` inside `calculate_step` has a nonzero divisor). -/
def WF {T : Type} (g : Pagerank T) : Prop :=
  (∀ pr ∈ g.node_positions, pr.2 < g.nodes.length) ∧
    ∀ (j : ℕ) (n : GraphNode T), g.nodes[j]? = some n →
      ∀ p ∈ n.incoming_edges,
        ∃ m : GraphNode T, g.nodes[p]? = some m ∧ 1 ≤ m.outgoing_edges

/-- Graph states reachable through the public API of the source: `new`
followed by any sequence of `set_damping_factor`, `get_or_create_node`,
`add_edge`, `len_nodes_with_incoming_edges`, `calculate_step`,
`calculate_with_convergence` / `calculate` (the read-only accessors do
not change the state). -/
inductive Reachable {T : Type} [DecidableEq T] : Pagerank T → Prop where
  | new : Reachable Pagerank.new
  | set_damping {g g' : Pagerank T} {f : ℕ} :
      Reachable g → g.set_damping_factor f = .ok g' → Reachable g'
  | get_or_create {g : Pagerank T} {x : T} :
      Reachable g → Reachable (g.get_or_create_node x).2
  | add_edge {g : Pagerank T} {s t : T} :
      Reachable g → Reachable (g.add_edge s t)
  | len_incoming {g : Pagerank T} :
      Reachable g → Reachable g.len_nodes_with_incoming_edges.2
  | step {g : Pagerank T} :
      Reachable g → Reachable g.calculate_step.graph
  | converge {g g' : Pagerank T} {fuel n : ℕ} {conv : ℚ} :
      Reachable g →
      Pagerank.calculate_with_convergence fuel g conv = some (n, g') →
      Reachable g'

/-! ### Basic lemmas about the list helpers -/

theorem modifyIdx_length {α : Type} (f : α → α) (l : List α) (i : ℕ) :
    (modifyIdx l i f).length = l.length := by
  induction l generalizing i with
  | nil => rfl
  | cons x xs ih =>
      cases i with
      | zero => rfl
      | succ n => simpa [modifyIdx] using ih n

theorem getElem?_modifyIdx_self {α : Type} (f : α → α) (l : List α) (i : ℕ) :
    (modifyIdx l i f)[i]? = l[i]?.map f := by
  induction l generalizing i with
  | nil => cases i <;> rfl
  | cons x xs ih =>
      cases i with
      | zero => simp [modifyIdx]
      | succ n => simpa [modifyIdx] using ih n

theorem getElem?_modifyIdx_ne {α : Type} (f : α → α) (l : List α) {i j : ℕ}
    (h : j ≠ i) : (modifyIdx l i f)[j]? = l[j]? := by
  induction l generalizing i j with
  | nil => cases i <;> rfl
  | cons x xs ih =>
      cases i with
      | zero =>
          cases j with
          | zero => exact absurd rfl h
          | succ m => simp [modifyIdx]
      | succ n =>
          cases j with
          | zero => simp [modifyIdx]
          | succ m => simpa [modifyIdx] using ih (fun hc => h (by omega))

theorem lookup_mem {T : Type} [DecidableEq T] {l : List (T × ℕ)} {a : T} {b : ℕ}
    (h : l.lookup a = some b) : (a, b) ∈ l := by
  induction l with
  | nil => simp [List.lookup] at h
  | cons p l ih =>
      rw [List.lookup] at h
      by_cases hc : a == p.1
      · rw [hc] at h
        cases h
        have : a = p.1 := by simpa using hc
        subst this
        exact List.mem_cons_self _ _
      · rw [Bool.not_eq_true] at hc
        rw [hc] at h
        exact List.mem_cons_of_mem _ (ih h)

/-! ### Shape lemmas for the state-passing operations -/

theorem len_nodes_snd {T : Type} (g : Pagerank T) :
    ∃ c, g.len_nodes_with_incoming_edges.2 = { g with nodes_with_incoming := c } := by
  cases h : g.nodes_with_incoming with
  | some n =>
      have h1 : g.len_nodes_with_incoming_edges = (n, g) := by
        unfold Pagerank.len_nodes_with_incoming_edges
        rw [h]
      exact ⟨some n, by rw [h1, ← h]⟩
  | none =>
      refine ⟨some (g.nodes.foldl
        (fun total node => if 0 < node.incoming_edges.length then total + 1 else total) 0), ?_⟩
      unfold Pagerank.len_nodes_with_incoming_edges
      rw [h]

theorem calculate_step_graph {T : Type} (g : Pagerank T) :
    ∃ c, g.calculate_step.graph =
      { g with nodes := g.nodes.map (updatedNode g), nodes_with_incoming := c } := by
  unfold Pagerank.calculate_step
  have h := len_nodes_snd { g with nodes := g.nodes.map (updatedNode g) }
  obtain ⟨c, hc⟩ := h
  exact ⟨c, hc⟩

theorem goc_known {T : Type} [DecidableEq T] {g : Pagerank T} {x : T} {v : ℕ}
    (h : g.node_positions.lookup x = some v) :
    g.get_or_create_node x = (v, g) := by
  unfold Pagerank.get_or_create_node
  rw [h]

theorem goc_fresh {T : Type} [DecidableEq T] {g : Pagerank T} {x : T}
    (h : g.node_positions.lookup x = none) :
    g.get_or_create_node x =
      (g.nodes.length,
        { g with
          nodes := g.nodes ++ [{ node := x, incoming_edges := [],
                                 outgoing_edges := 0, score := 1 - g.damping }]
          node_positions := (x, g.nodes.length) :: g.node_positions
          nodes_with_incoming := none }) := by
  unfold Pagerank.get_or_create_node
  rw [h]

theorem add_edge_eq {T : Type} [DecidableEq T] (g : Pagerank T) (source target : T) :
    g.add_edge source target =
      { ((g.get_or_create_node source).2.get_or_create_node target).2 with
        nodes := modifyIdx
          (modifyIdx ((g.get_or_create_node source).2.get_or_create_node target).2.nodes
            (g.get_or_create_node source).1 bumpOutgoing)
          ((g.get_or_create_node source).2.get_or_create_node target).1
          (pushIncoming (g.get_or_create_node source).1)
        edges := ((g.get_or_create_node source).2.get_or_create_node target).2.edges + 1 } :=
  rfl

theorem goc_len_le {T : Type} [DecidableEq T] (g : Pagerank T) (x : T) :
    g.nodes.length ≤ (g.get_or_create_node x).2.nodes.length := by
  cases hl : g.node_positions.lookup x with
  | some v => rw [goc_known hl]
  | none => rw [goc_fresh hl]; simp

theorem goc_nodes_getElem {T : Type} [DecidableEq T] (g : Pagerank T) (x : T)
    {j : ℕ} (hj : j < g.nodes.length) :
    (g.get_or_create_node x).2.nodes[j]? = g.nodes[j]? := by
  cases hl : g.node_positions.lookup x with
  | some v => rw [goc_known hl]
  | none => rw [goc_fresh hl]; exact List.getElem?_append_left hj

theorem goc_fst_lt {T : Type} [DecidableEq T] {g : Pagerank T} (h : WF g) (x : T) :
    (g.get_or_create_node x).1 < (g.get_or_create_node x).2.nodes.length := by
  cases hl : g.node_positions.lookup x with
  | some v =>
      rw [goc_known hl]
      exact h.1 _ (lookup_mem hl)
  | none => rw [goc_fresh hl]; simp

theorem WF_new {T : Type} : WF (Pagerank.new (T := T)) := by
  constructor
  · intro pr hpr
    simp [Pagerank.new] at hpr
  · intro j n hjn
    simp [Pagerank.new] at hjn

theorem WF_goc {T : Type} [DecidableEq T] {g : Pagerank T} (h : WF g) (x : T) :
    WF (g.get_or_create_node x).2 := by
  cases hl : g.node_positions.lookup x with
  | some v => rw [goc_known hl]; exact h
  | none =>
      rw [goc_fresh hl]
      constructor
      · intro pr hpr
        simp only [List.mem_cons] at hpr
        rcases hpr with hpr | hpr
        · subst hpr; simp
        · have := h.1 pr hpr
          simp only [List.length_append, List.length_cons, List.length_nil]
          omega
      · intro j n hjn p hp
        have hjlen : j < g.nodes.length + 1 := by
          have := List.getElem?_eq_some_iff.mp hjn
          simpa using this.choose
        rcases Nat.lt_succ_iff_lt_or_eq.mp hjlen with hj | hj
        · rw [List.getElem?_append_left hj] at hjn
          obtain ⟨m, hm, hout⟩ := h.2 j n hjn p hp
          have hplen : p < g.nodes.length := by
            have := List.getElem?_eq_some_iff.mp hm
            exact this.choose
          exact ⟨m, by rw [List.getElem?_append_left hplen]; exact hm, hout⟩
        · subst hj
          rw [List.getElem?_concat_length] at hjn
          cases hjn
          simp at hp

theorem modify2_outgoing_ge {T : Type} {l : List (GraphNode T)} {s1 t1 p : ℕ}
    {m : GraphNode T} (hm : l[p]? = some m) :
    ∃ m' : GraphNode T,
      (modifyIdx (modifyIdx l s1 bumpOutgoing) t1 (pushIncoming s1))[p]? = some m' ∧
        m.outgoing_edges ≤ m'.outgoing_edges := by
  by_cases hps : p = s1
  · subst hps
    by_cases hpt : p = t1
    · subst hpt
      refine ⟨pushIncoming p (bumpOutgoing m), ?_, ?_⟩
      · rw [getElem?_modifyIdx_self, getElem?_modifyIdx_self, hm]; rfl
      · simp [pushIncoming, bumpOutgoing]
    · refine ⟨bumpOutgoing m, ?_, ?_⟩
      · rw [getElem?_modifyIdx_ne _ _ hpt, getElem?_modifyIdx_self, hm]; rfl
      · simp [bumpOutgoing]
  · by_cases hpt : p = t1
    · subst hpt
      refine ⟨pushIncoming s1 m, ?_, ?_⟩
      · rw [getElem?_modifyIdx_self, getElem?_modifyIdx_ne _ _ hps, hm]; rfl
      · simp [pushIncoming]
    · exact ⟨m, by rw [getElem?_modifyIdx_ne _ _ hpt, getElem?_modifyIdx_ne _ _ hps, hm], le_refl _⟩

theorem modify2_incoming {T : Type} {l : List (GraphNode T)} {s1 t1 j : ℕ}
    {n : GraphNode T}
    (hn : (modifyIdx (modifyIdx l s1 bumpOutgoing) t1 (pushIncoming s1))[j]? = some n) :
    ∃ n2 : GraphNode T, l[j]? = some n2 ∧
      (n.incoming_edges = n2.incoming_edges ∨
        (j = t1 ∧ n.incoming_edges = n2.incoming_edges ++ [s1])) := by
  by_cases hjt : j = t1
  · subst hjt
    rw [getElem?_modifyIdx_self] at hn
    by_cases hjs : j = s1
    · subst hjs
      rw [getElem?_modifyIdx_self] at hn
      cases h2 : l[j]? with
      | none => rw [h2] at hn; cases hn
      | some n2 =>
          rw [h2] at hn
          cases hn
          exact ⟨n2, rfl, Or.inr ⟨rfl, rfl⟩⟩
    · rw [getElem?_modifyIdx_ne _ _ hjs] at hn
      cases h2 : l[j]? with
      | none => rw [h2] at hn; cases hn
      | some n2 =>
          rw [h2] at hn
          cases hn
          exact ⟨n2, rfl, Or.inr ⟨rfl, rfl⟩⟩
  · rw [getElem?_modifyIdx_ne _ _ hjt] at hn
    by_cases hjs : j = s1
    · subst hjs
      rw [getElem?_modifyIdx_self] at hn
      cases h2 : l[j]? with
      | none => rw [h2] at hn; cases hn
      | some n2 =>
          rw [h2] at hn
          cases hn
          exact ⟨n2, rfl, Or.inl rfl⟩
    · rw [getElem?_modifyIdx_ne _ _ hjs] at hn
      exact ⟨n, hn, Or.inl rfl⟩

theorem WF_add_edge {T : Type} [DecidableEq T] {g : Pagerank T} (h : WF g)
    (source target : T) : WF (g.add_edge source target) := by
  have h1 : WF (g.get_or_create_node source).2 := WF_goc h source
  have hs1 : (g.get_or_create_node source).1 < (g.get_or_create_node source).2.nodes.length :=
    goc_fst_lt h source
  have h2 : WF ((g.get_or_create_node source).2.get_or_create_node target).2 :=
    WF_goc h1 target
  have hs2 : (g.get_or_create_node source).1 <
      ((g.get_or_create_node source).2.get_or_create_node target).2.nodes.length :=
    lt_of_lt_of_le hs1 (goc_len_le _ target)
  obtain ⟨ns, hns⟩ : ∃ m : GraphNode T,
      ((g.get_or_create_node source).2.get_or_create_node target).2.nodes[(g.get_or_create_node source).1]? = some m :=
    ⟨_, List.getElem?_eq_getElem hs2⟩
  rw [add_edge_eq]
  constructor
  · intro pr hpr
    have := h2.1 pr hpr
    simpa [modifyIdx_length] using this
  · intro j n hjn p hp
    obtain ⟨n2, hn2, hinc⟩ := modify2_incoming hjn
    have hsrc : ∃ m' : GraphNode T,
        (modifyIdx (modifyIdx ((g.get_or_create_node source).2.get_or_create_node target).2.nodes
            (g.get_or_create_node source).1 bumpOutgoing)
          ((g.get_or_create_node source).2.get_or_create_node target).1
          (pushIncoming (g.get_or_create_node source).1))[(g.get_or_create_node source).1]? = some m' ∧
          1 ≤ m'.outgoing_edges := by
      obtain ⟨m', hm', hge⟩ := modify2_outgoing_ge hns
      refine ⟨m', hm', ?_⟩
      have : ns.outgoing_edges + 1 ≤ m'.outgoing_edges ∨ 1 ≤ m'.outgoing_edges := by
        right
        -- m' is the node at position s1 after both writes; the first write
        -- bumped its outgoing count, so it is at least 1
        by_cases hst : (g.get_or_create_node source).1 =
            ((g.get_or_create_node source).2.get_or_create_node target).1
        · rw [← hst, getElem?_modifyIdx_self, getElem?_modifyIdx_self, hns] at hm'
          cases hm'
          simp [pushIncoming, bumpOutgoing]
        · rw [getElem?_modifyIdx_ne _ _ (fun hc => hst hc), getElem?_modifyIdx_self, hns] at hm'
          cases hm'
          simp [bumpOutgoing]
      rcases this with h' | h'
      · omega
      · exact h'
    rcases hinc with hinc | ⟨hjt, hinc⟩
    · rw [hinc] at hp
      obtain ⟨m, hm, hout⟩ := h2.2 j n2 hn2 p hp
      obtain ⟨m', hm', hge⟩ := modify2_outgoing_ge hm
      exact ⟨m', hm', le_trans hout hge⟩
    · rw [hinc] at hp
      rcases List.mem_append.mp hp with hp | hp
      · obtain ⟨m, hm, hout⟩ := h2.2 j n2 hn2 p hp
        obtain ⟨m', hm', hge⟩ := modify2_outgoing_ge hm
        exact ⟨m', hm', le_trans hout hge⟩
      · have hps : p = (g.get_or_create_node source).1 := by simpa using hp
        subst hps
        exact hsrc

theorem updatedNode_incoming {T : Type} (g : Pagerank T) (n : GraphNode T) :
    (updatedNode g n).incoming_edges = n.incoming_edges := rfl

theorem updatedNode_outgoing {T : Type} (g : Pagerank T) (n : GraphNode T) :
    (updatedNode g n).outgoing_edges = n.outgoing_edges := rfl

theorem WF_step {T : Type} {g : Pagerank T} (h : WF g) : WF g.calculate_step.graph := by
  obtain ⟨c, hc⟩ := calculate_step_graph g
  rw [hc]
  constructor
  · intro pr hpr
    have := h.1 pr hpr
    simpa using this
  · intro j n hjn p hp
    rw [List.getElem?_map] at hjn
    cases h2 : g.nodes[j]? with
    | none => rw [h2] at hjn; cases hjn
    | some n2 =>
        rw [h2] at hjn
        cases hjn
        rw [updatedNode_incoming] at hp
        obtain ⟨m, hm, hout⟩ := h.2 j n2 h2 p hp
        refine ⟨updatedNode g m, ?_, ?_⟩
        · rw [List.getElem?_map, hm]; rfl
        · rw [updatedNode_outgoing]; exact hout

theorem WF_len {T : Type} {g : Pagerank T} (h : WF g) :
    WF g.len_nodes_with_incoming_edges.2 := by
  obtain ⟨c, hc⟩ := len_nodes_snd g
  rw [hc]
  exact h

theorem set_damping_ok {T : Type} {g g' : Pagerank T} {f : ℕ}
    (h : g.set_damping_factor f = .ok g') :
    g' = { g with damping := (f : ℚ) / 100 } := by
  unfold Pagerank.set_damping_factor at h
  by_cases hf : 100 ≤ f
  · rw [if_pos hf] at h; cases h
  · rw [if_neg hf] at h; cases h; rfl

theorem WF_set_damping {T : Type} {g g' : Pagerank T} {f : ℕ} (h : WF g)
    (hok : g.set_damping_factor f = .ok g') : WF g' := by
  rw [set_damping_ok hok]
  exact h

theorem WF_conv {T : Type} {fuel : ℕ} {g g' : Pagerank T} {conv : ℚ} {n : ℕ}
    (h : WF g)
    (hr : Pagerank.calculate_with_convergence fuel g conv = some (n, g')) :
    WF g' := by
  induction fuel generalizing g n with
  | zero => cases hr
  | succ fuel ih =>
      rw [Pagerank.calculate_with_convergence] at hr
      by_cases hm : g.calculate_step.metric.ltQ conv
      · rw [if_pos hm] at hr
        cases hr
        exact WF_step h
      · rw [if_neg hm] at hr
        cases hrec : Pagerank.calculate_with_convergence fuel g.calculate_step.graph conv with
        | none => rw [hrec] at hr; cases hr
        | some p =>
            rw [hrec] at hr
            cases hr
            exact ih (WF_step h) hrec

theorem reachable_WF {T : Type} [DecidableEq T] {g : Pagerank T}
    (h : Reachable g) : WF g := by
  induction h with
  | new => exact WF_new
  | set_damping _ hok ih => exact WF_set_damping ih hok
  | get_or_create _ ih => exact WF_goc ih _
  | add_edge _ ih => exact WF_add_edge ih _ _
  | len_incoming _ ih => exact WF_len ih
  | step _ ih => exact WF_step ih
  | converge _ hr ih => exact WF_conv ih hr

/-! ### Counting and projection lemmas for `calculate_step` -/

theorem foldl_incoming_count {T : Type} (ns : List (GraphNode T)) (acc : ℕ) :
    ns.foldl (fun total node => if 0 < node.incoming_edges.length then total + 1 else total) acc =
      acc + ns.countP (fun n => decide (0 < n.incoming_edges.length)) := by
  induction ns generalizing acc with
  | nil => simp
  | cons x xs ih =>
      rw [List.foldl_cons, ih, List.countP_cons]
      by_cases hx : 0 < x.incoming_edges.length
      · simp [hx]; omega
      · simp [hx]

theorem len_nodes_fst_none {T : Type} {g : Pagerank T}
    (h : g.nodes_with_incoming = none) :
    g.len_nodes_with_incoming_edges.1 = trueIncomingCount g := by
  unfold Pagerank.len_nodes_with_incoming_edges trueIncomingCount
  rw [h]
  simpa using foldl_incoming_count g.nodes 0

theorem len_nodes_fst_some {T : Type} {g : Pagerank T} {k : ℕ}
    (h : g.nodes_with_incoming = some k) :
    g.len_nodes_with_incoming_edges.1 = k := by
  unfold Pagerank.len_nodes_with_incoming_edges
  rw [h]

theorem len_nodes_cache_after {T : Type} (g : Pagerank T) :
    g.len_nodes_with_incoming_edges.2.nodes_with_incoming =
      some g.len_nodes_with_incoming_edges.1 := by
  cases h : g.nodes_with_incoming with
  | some n =>
      unfold Pagerank.len_nodes_with_incoming_edges
      rw [h]
      exact h
  | none =>
      unfold Pagerank.len_nodes_with_incoming_edges
      rw [h]

theorem calculate_step_sumSq {T : Type} (g : Pagerank T) :
    g.calculate_step.sumSq =
      ((g.nodes.zip (g.nodes.map (updatedNode g))).map
        (fun pr => (pr.1.score - pr.2.score) * (pr.1.score - pr.2.score))).sum := rfl

theorem calculate_step_nodes {T : Type} (g : Pagerank T) :
    g.calculate_step.graph.nodes = g.nodes.map (updatedNode g) := by
  obtain ⟨c, hc⟩ := calculate_step_graph g
  rw [hc]

theorem calculate_step_denom {T : Type} (g : Pagerank T) :
    g.calculate_step.denom =
      ({ g with nodes := g.nodes.map (updatedNode g) } :
        Pagerank T).len_nodes_with_incoming_edges.1 := rfl

theorem trueIncomingCount_map_updated {T : Type} (g : Pagerank T) :
    trueIncomingCount { g with nodes := g.nodes.map (updatedNode g) } =
      trueIncomingCount g := by
  unfold trueIncomingCount
  simp only []
  rw [List.countP_map]
  rfl

theorem calculate_step_denom_none {T : Type} {g : Pagerank T}
    (h : g.nodes_with_incoming = none) :
    g.calculate_step.denom = trueIncomingCount g := by
  rw [calculate_step_denom,
    len_nodes_fst_none (g := { g with nodes := g.nodes.map (updatedNode g) }) h,
    trueIncomingCount_map_updated]

theorem calculate_step_denom_some {T : Type} {g : Pagerank T} {k : ℕ}
    (h : g.nodes_with_incoming = some k) :
    g.calculate_step.denom = k :=
  len_nodes_fst_some (g := { g with nodes := g.nodes.map (updatedNode g) }) h

theorem sumSq_nonneg {T : Type} (g : Pagerank T) : 0 ≤ g.calculate_step.sumSq := by
  rw [calculate_step_sumSq]
  apply List.sum_nonneg
  intro x hx
  rw [List.mem_map] at hx
  obtain ⟨pr, _, rfl⟩ := hx
  exact mul_self_nonneg _

/-! ### The IEEE metric against the real square root -/

theorem ltQ_fin_iff {S : ℚ} {k : ℕ} (hS : 0 ≤ S) (hk : 0 < k) (t : ℚ) :
    (MetricValue.fin S k).ltQ t = true ↔
      Real.sqrt (S : ℝ) / (k : ℝ) < (t : ℝ) := by
  rw [MetricValue.ltQ, decide_eq_true_iff]
  have hk' : (0 : ℝ) < (k : ℝ) := by exact_mod_cast hk
  constructor
  · rintro ⟨h0, ht, hlt⟩
    have ht' : (0 : ℝ) < (t : ℝ) := by exact_mod_cast ht
    rw [div_lt_iff₀ hk']
    have htk : (0 : ℝ) < (t : ℝ) * (k : ℝ) := mul_pos ht' hk'
    rw [Real.sqrt_lt' htk, pow_two]
    have : ((S : ℚ) : ℝ) < (((t * k) * (t * k) : ℚ) : ℝ) := by exact_mod_cast hlt
    push_cast at this
    convert this using 2
  · intro hlt
    have hs0 : (0 : ℝ) ≤ Real.sqrt (S : ℝ) / (k : ℝ) :=
      div_nonneg (Real.sqrt_nonneg _) (le_of_lt hk')
    have ht' : (0 : ℝ) < (t : ℝ) := lt_of_le_of_lt hs0 hlt
    have ht : (0 : ℚ) < t := by exact_mod_cast ht'
    have hsq : Real.sqrt (S : ℝ) < (t : ℝ) * (k : ℝ) := (div_lt_iff₀ hk').mp hlt
    have hS' : (0 : ℝ) ≤ (S : ℝ) := by exact_mod_cast hS
    have hmul : Real.sqrt (S : ℝ) * Real.sqrt (S : ℝ) <
        ((t : ℝ) * (k : ℝ)) * ((t : ℝ) * (k : ℝ)) :=
      mul_self_lt_mul_self (Real.sqrt_nonneg _) hsq
    rw [Real.mul_self_sqrt hS'] at hmul
    refine ⟨hS, ht, ?_⟩
    exact_mod_cast hmul

/-! ### Characterisation of the convergence loop -/

theorem stepIter_shift {T : Type} (g : Pagerank T) (i : ℕ) :
    stepIter g.calculate_step.graph i = stepIter g (i + 1) := by
  induction i with
  | zero => rfl
  | succ n ih =>
      show (stepIter g.calculate_step.graph n).calculate_step.graph =
        (stepIter g (n + 1)).calculate_step.graph
      rw [ih]

/-! ### Settled claims -/

/-- Claim C1 (amended): after a call to `calculate_step` on a graph whose
cached nodes-with-incoming count is absent or agrees with the true count,
every node's new score is `(1 − damping) + damping · Σ over its incoming
positions p of old_score[p]/outgoing[p]` with all contributions read from
the pre-call scores (Jacobi semantics), the returned numerator is
`Σ (old − new)²` over all nodes, and the returned value is
`sqrt` of that sum divided by the true nodes-with-incoming count.  (The
unamended claim uses the true count unconditionally; the stale-cache
counterexample below refutes that.) -/
theorem claim_C1 {T : Type} (g : Pagerank T)
    (hc : g.nodes_with_incoming = none ∨
      g.nodes_with_incoming = some (trueIncomingCount g)) :
    (∀ (j : ℕ) (n : GraphNode T), g.nodes[j]? = some n →
        g.calculate_step.graph.nodes[j]? =
          some { n with score := (1 - g.damping) +
            g.damping * (n.incoming_edges.map (fun p => contribution g.nodes p)).sum }) ∧
    g.calculate_step.sumSq =
      ((g.nodes.zip g.calculate_step.graph.nodes).map
        (fun pr => (pr.1.score - pr.2.score) * (pr.1.score - pr.2.score))).sum ∧
    g.calculate_step.denom = trueIncomingCount g ∧
    g.calculate_step.metric = mkMetric g.calculate_step.sumSq (trueIncomingCount g) := by
  have hdenom : g.calculate_step.denom = trueIncomingCount g := by
    rcases hc with hc | hc
    · exact calculate_step_denom_none hc
    · exact calculate_step_denom_some hc
  refine ⟨?_, ?_, hdenom, ?_⟩
  · intro j n hjn
    rw [calculate_step_nodes, List.getElem?_map, hjn]
    rfl
  · rw [calculate_step_nodes]
    exact calculate_step_sumSq g
  · rw [StepResult.metric, hdenom]

theorem claim_C1_witness :
    (Pagerank.new.add_edge "a" "b").calculate_step.denom =
      trueIncomingCount (Pagerank.new.add_edge "a" "b") :=
  (claim_C1 (Pagerank.new.add_edge "a" "b") (Or.inl (by decide))).2.2.1

/-- Counterexample to claim C1 as stated: on the reachable state
`staleExample` the divisor actually used is the stale cached count 1,
not the true count 2 of nodes with an incoming edge, and the two real
values `√S/1` and `√S/2` differ because the numerator is nonzero. -/
theorem claim_C1_cex :
    staleExample.calculate_step.denom = 1 ∧
    trueIncomingCount staleExample = 2 ∧
    staleExample.calculate_step.metric =
      MetricValue.fin (3560769 / 64000000) 1 ∧
    Real.sqrt (staleExample.calculate_step.sumSq : ℝ) /
        (staleExample.calculate_step.denom : ℝ) ≠
      Real.sqrt (staleExample.calculate_step.sumSq : ℝ) /
        (trueIncomingCount staleExample : ℝ) := by
  have hd : staleExample.calculate_step.denom = 1 := by decide
  have ht : trueIncomingCount staleExample = 2 := by decide
  have hS : staleExample.calculate_step.sumSq = 3560769 / 64000000 := by decide
  refine ⟨hd, ht, by decide, ?_⟩
  rw [hd, ht, hS]
  have hpos : (0 : ℝ) < Real.sqrt ((3560769 / 64000000 : ℚ) : ℝ) := by
    apply Real.sqrt_pos.mpr
    rw [show ((3560769 / 64000000 : ℚ) : ℝ) = 3560769 / 64000000 by push_cast; ring]
    norm_num
  intro heq
  rw [Nat.cast_one, Nat.cast_ofNat, div_one] at heq
  nlinarith [hpos]

theorem calc_conv_spec {T : Type} (fuel n : ℕ) (g g' : Pagerank T) (conv : ℚ)
    (h : Pagerank.calculate_with_convergence fuel g conv = some (n, g')) :
    (stepIter g n).calculate_step.metric.ltQ conv = true ∧
      (∀ j < n, (stepIter g j).calculate_step.metric.ltQ conv = false) ∧
      g' = stepIter g (n + 1) := by
  induction fuel generalizing g n g' with
  | zero => cases h
  | succ fuel ih =>
      rw [Pagerank.calculate_with_convergence] at h
      by_cases hm : g.calculate_step.metric.ltQ conv = true
      · rw [if_pos hm] at h
        cases h
        exact ⟨hm, fun j hj => absurd hj (by omega), rfl⟩
      · rw [if_neg hm] at h
        cases hrec : Pagerank.calculate_with_convergence fuel g.calculate_step.graph conv with
        | none => rw [hrec] at h; cases h
        | some p =>
            obtain ⟨n', g''⟩ := p
            rw [hrec] at h
            cases h
            obtain ⟨ha, hb, hc⟩ := ih _ _ _ hrec
            refine ⟨?_, ?_, ?_⟩
            · rw [← stepIter_shift]
              exact ha
            · intro j hj
              cases j with
              | zero =>
                  simp only [Bool.not_eq_true] at hm
                  exact hm
              | succ j' =>
                  have := hb j' (by omega)
                  rw [← stepIter_shift]
                  exact this
            · rw [hc, stepIter_shift]

theorem metric_ltQ_iff {T : Type} (g : Pagerank T) (t : ℚ) :
    g.calculate_step.metric.ltQ t = true ↔
      (g.calculate_step.denom ≠ 0 ∧
        Real.sqrt (g.calculate_step.sumSq : ℝ) /
          (g.calculate_step.denom : ℝ) < (t : ℝ)) := by
  rw [StepResult.metric, mkMetric]
  by_cases hk : g.calculate_step.denom = 0
  · rw [if_pos hk]
    by_cases hS : 0 < g.calculate_step.sumSq
    · rw [if_pos hS]
      simp [MetricValue.ltQ, hk]
    · rw [if_neg hS]
      simp [MetricValue.ltQ, hk]
  · rw [if_neg hk]
    rw [ltQ_fin_iff (sumSq_nonneg g) (Nat.pos_of_ne_zero hk)]
    simp [hk]

/-- Claim C2: whenever the `calculate_with_convergence` loop terminates
(returning an iteration count within the given fuel), the step whose
index it returns is the first whose metric `√S/k` is strictly below the
threshold — every earlier step's metric failed the comparison (in IEEE
semantics: because it was a finite value `≥` the threshold, or NaN/∞
from a zero denominator) — and the returned count equals that index, in
particular 0 when the very first step already meets the threshold. -/
theorem claim_C2 {T : Type} (fuel n : ℕ) (g g' : Pagerank T) (conv : ℚ)
    (h : Pagerank.calculate_with_convergence fuel g conv = some (n, g')) :
    ((stepIter g n).calculate_step.denom ≠ 0 ∧
      Real.sqrt ((stepIter g n).calculate_step.sumSq : ℝ) /
        ((stepIter g n).calculate_step.denom : ℝ) < (conv : ℝ)) ∧
    (∀ j < n,
      ¬ ((stepIter g j).calculate_step.denom ≠ 0 ∧
        Real.sqrt ((stepIter g j).calculate_step.sumSq : ℝ) /
          ((stepIter g j).calculate_step.denom : ℝ) < (conv : ℝ))) ∧
    g' = stepIter g (n + 1) := by
  obtain ⟨ha, hb, hc⟩ := calc_conv_spec fuel n g g' conv h
  refine ⟨(metric_ltQ_iff _ conv).mp ha, ?_, hc⟩
  intro j hj hP
  have := (metric_ltQ_iff (stepIter g j) conv).mpr hP
  rw [hb j hj] at this
  cases this

theorem claim_C2_witness :
    ((stepIter (Pagerank.new.add_edge "a" "b") 1).calculate_step.denom ≠ 0 ∧
      Real.sqrt ((stepIter (Pagerank.new.add_edge "a" "b") 1).calculate_step.sumSq : ℝ) /
        ((stepIter (Pagerank.new.add_edge "a" "b") 1).calculate_step.denom : ℝ) <
        ((1 / 100 : ℚ) : ℝ)) ∧
    ¬ ((stepIter (Pagerank.new.add_edge "a" "b") 0).calculate_step.denom ≠ 0 ∧
      Real.sqrt ((stepIter (Pagerank.new.add_edge "a" "b") 0).calculate_step.sumSq : ℝ) /
        ((stepIter (Pagerank.new.add_edge "a" "b") 0).calculate_step.denom : ℝ) <
        ((1 / 100 : ℚ) : ℝ)) := by
  have h := claim_C2 5 1 (Pagerank.new.add_edge "a" "b")
    (stepIter (Pagerank.new.add_edge "a" "b") 2) (1 / 100) (by decide)
  exact ⟨h.1, h.2.1 0 (by decide)⟩

/-- Claim C3 (amended): on the canonical 11-node example graph with the
default damping, `calculate()` (the run with threshold `0.01`) returns
iteration count 18 — not 16; the 16 of the repository's tests belongs to
the different 4-node `test_full_run` graph — and the ranked view
afterwards lists the identifiers in the order
`B, C, E, F, A, D, G, H, I, J, K` exactly as claimed. -/
theorem claim_C3 :
    (examplePR.calculate 32).map
        (fun p => (p.1, p.2.ranked_nodes.map Prod.fst)) =
      some (18, ["B", "C", "E", "F", "A", "D", "G", "H", "I", "J", "K"]) := by
  decide

/-- Counterexample to claim C3 as stated: the example run's iteration
count is not 16. -/
theorem claim_C3_cex :
    (examplePR.calculate 32).map (fun p => p.1) ≠ some 16 := by
  decide

/-- Claim C4 (amended): the metric returned by `calculate_step` is `≥ 0`
whenever its denominator is nonzero (the finite value `√S/k` with
`S = Σ(old−new)² ≥ 0`) or its numerator is nonzero (`+∞`); on the empty
graph — numerator 0 and denominator 0 — the returned value is the IEEE
quotient `0.0/0.0 = NaN`, for which `metric ≥ 0` is false, refuting the
unamended claim. -/
theorem claim_C4 {T : Type} (g : Pagerank T)
    (h : g.calculate_step.denom ≠ 0 ∨ g.calculate_step.sumSq ≠ 0) :
    g.calculate_step.metric.nonneg = true := by
  rw [StepResult.metric, mkMetric]
  by_cases hk : g.calculate_step.denom = 0
  · rcases h with h | h
    · exact absurd hk h
    · rw [if_pos hk, if_pos (lt_of_le_of_ne (sumSq_nonneg g) (Ne.symm h))]
      rfl
  · rw [if_neg hk, MetricValue.nonneg, decide_eq_true_iff]
    exact sumSq_nonneg g

theorem claim_C4_witness :
    (Pagerank.new.add_edge "a" "b").calculate_step.metric.nonneg = true :=
  claim_C4 (Pagerank.new.add_edge "a" "b") (Or.inl (by decide))

/-- Counterexample to claim C4 as stated: on the empty graph the metric
is NaN (`0.0/0.0`), and `NaN ≥ 0` is false in IEEE arithmetic. -/
theorem claim_C4_cex :
    (Pagerank.new (T := String)).calculate_step.metric = MetricValue.nan ∧
    (Pagerank.new (T := String)).calculate_step.metric.nonneg = false := by
  decide

/-- Claim C5: in every graph state reachable through the public API,
every position on any node's incoming list designates a node whose
outgoing count is at least 1, so the division `score / outgoing` inside
`calculate_step` never has a zero divisor. -/
theorem claim_C5 {T : Type} [DecidableEq T] {g : Pagerank T}
    (h : Reachable g) :
    ∀ (j : ℕ) (n : GraphNode T), g.nodes[j]? = some n →
      ∀ p ∈ n.incoming_edges,
        ∃ m : GraphNode T, g.nodes[p]? = some m ∧ 1 ≤ m.outgoing_edges :=
  (reachable_WF h).2

theorem claim_C5_witness :
    ∃ m : GraphNode String,
      (Pagerank.new.add_edge "a" "b").nodes[0]? = some m ∧
        1 ≤ m.outgoing_edges :=
  claim_C5 (Reachable.add_edge Reachable.new) 1
    { node := "b", incoming_edges := [0], outgoing_edges := 0, score := 3 / 20 }
    (by decide) 0 (by decide)

/-- Claim C10: `add_edge` between two already-known identifiers leaves the
cached nodes-with-incoming count untouched (only node creation invalidates
it); concretely, after `add_edge a b`, one step (the cache becomes 1), and
`add_edge b a`, the cache still reads 1 while two nodes now have incoming
edges, and the next step divides by the stale 1. -/
theorem claim_C10 (T : Type) [DecidableEq T] :
    (∀ (g : Pagerank T) (s t : T),
      (g.node_positions.lookup s).isSome →
      (g.node_positions.lookup t).isSome →
      (g.add_edge s t).nodes_with_incoming = g.nodes_with_incoming) ∧
    ((Pagerank.new.add_edge "a" "b").calculate_step.graph.nodes_with_incoming = some 1 ∧
      staleExample.nodes_with_incoming = some 1 ∧
      trueIncomingCount staleExample = 2 ∧
      staleExample.calculate_step.denom = 1) := by
  constructor
  · intro g s t hs ht
    obtain ⟨v, hv⟩ := Option.isSome_iff_exists.mp hs
    obtain ⟨w, hw⟩ := Option.isSome_iff_exists.mp ht
    rw [add_edge_eq]
    rw [goc_known hv]
    simp only []
    rw [goc_known hw]
  · exact ⟨by decide, by decide, by decide, by decide⟩

theorem claim_C10_witness :
    (staleExample.add_edge "a" "b").nodes_with_incoming =
      staleExample.nodes_with_incoming :=
  (claim_C10 String).1 staleExample "a" "b" (by decide) (by decide)

/-- Claim C8: `set_damping_factor` fails with the validation error exactly
when the percentage is at least 100 — returning before any assignment, so
the state is untouched — and otherwise succeeds, setting
`damping = percent / 100` and changing no other field; in particular the
scores of already-existing nodes (their `1 − old damping` baseline) are
never rewritten. -/
theorem claim_C8 {T : Type} (g : Pagerank T) (f : ℕ) :
    (100 ≤ f →
      g.set_damping_factor f = .error "\x7bval\x7d needs to be bellow 100") ∧
    (f < 100 →
      g.set_damping_factor f = .ok { g with damping := (f : ℚ) / 100 }) ∧
    (∀ g' : Pagerank T, g.set_damping_factor f = .ok g' →
      g'.damping = (f : ℚ) / 100 ∧ g'.nodes = g.nodes ∧ g'.edges = g.edges ∧
        g'.node_positions = g.node_positions ∧
        g'.nodes_with_incoming = g.nodes_with_incoming) := by
  refine ⟨?_, ?_, ?_⟩
  · intro hf
    unfold Pagerank.set_damping_factor
    rw [if_pos hf]
  · intro hf
    unfold Pagerank.set_damping_factor
    rw [if_neg (by omega)]
  · intro g' hok
    rw [set_damping_ok hok]
    exact ⟨rfl, rfl, rfl, rfl, rfl⟩

theorem claim_C8_witness :
    ((Pagerank.new (T := String)).set_damping_factor 150 =
        .error "\x7bval\x7d needs to be bellow 100") ∧
    ((Pagerank.new (T := String)).set_damping_factor 22 =
        .ok { Pagerank.new (T := String) with damping := (22 : ℚ) / 100 }) :=
  ⟨(claim_C8 (Pagerank.new (T := String)) 150).1 (by decide),
    (claim_C8 (Pagerank.new (T := String)) 22).2.1 (by decide)⟩

/-- Claim C9: the ranked view pairs every node's identifier with its
current score (a permutation of the node store's projection), sorted by
descending score; the source's `nodes(&self)` takes an immutable borrow,
modelled here as a pure function of the state, so two consecutive calls
with no intervening mutation return identical sequences. -/
theorem claim_C9 {T : Type} (g : Pagerank T) :
    List.Perm g.ranked_nodes (g.nodes.map (fun n => (n.node, n.score))) ∧
    List.Sorted (fun a b : T × ℚ => b.2 ≤ a.2) g.ranked_nodes ∧
    g.ranked_nodes = g.ranked_nodes := by
  refine ⟨List.perm_insertionSort _ _, ?_, rfl⟩
  haveI h1 : IsTotal (T × ℚ) (fun a b => b.2 ≤ a.2) := ⟨fun a b => le_total b.2 a.2⟩
  haveI h2 : IsTrans (T × ℚ) (fun a b => b.2 ≤ a.2) :=
    ⟨fun a b c hab hbc => le_trans hbc hab⟩
  exact List.sorted_insertionSort _ _

theorem goc_edges {T : Type} [DecidableEq T] (g : Pagerank T) (x : T) :
    (g.get_or_create_node x).2.edges = g.edges := by
  cases hl : g.node_positions.lookup x with
  | some v => rw [goc_known hl]
  | none => rw [goc_fresh hl]

/-- Claim C6: an unknown endpoint is created as a fresh node (outgoing 0,
empty incoming list, score `1 − damping`, cache invalidated); `add_edge`
then increments the source's outgoing count, appends the source position
to the target's incoming list and bumps the edge counter, with no
deduplication — every call appends — and a self-loop on a fresh
identifier yields a node whose incoming list holds its own position and
whose outgoing count is 1. -/
theorem claim_C6 {T : Type} [DecidableEq T] (g : Pagerank T) (s t x : T)
    (h : WF g) :
    (g.node_positions.lookup x = none →
      (g.get_or_create_node x).1 = g.nodes.length ∧
      (g.get_or_create_node x).2.nodes =
        g.nodes ++ [{ node := x, incoming_edges := [], outgoing_edges := 0,
                      score := 1 - g.damping }] ∧
      (g.get_or_create_node x).2.node_positions =
        (x, g.nodes.length) :: g.node_positions ∧
      (g.get_or_create_node x).2.nodes_with_incoming = none) ∧
    (g.add_edge s t).edges = g.edges + 1 ∧
    (∃ ns nt ns' nt' : GraphNode T,
      ((g.get_or_create_node s).2.get_or_create_node t).2.nodes[(g.get_or_create_node s).1]? = some ns ∧
      ((g.get_or_create_node s).2.get_or_create_node t).2.nodes[((g.get_or_create_node s).2.get_or_create_node t).1]? = some nt ∧
      (g.add_edge s t).nodes[(g.get_or_create_node s).1]? = some ns' ∧
      (g.add_edge s t).nodes[((g.get_or_create_node s).2.get_or_create_node t).1]? = some nt' ∧
      ns'.outgoing_edges = ns.outgoing_edges + 1 ∧
      nt'.incoming_edges = nt.incoming_edges ++ [(g.get_or_create_node s).1]) ∧
    (g.node_positions.lookup x = none →
      (g.add_edge x x).nodes[g.nodes.length]? =
        some { node := x, incoming_edges := [g.nodes.length],
               outgoing_edges := 1, score := 1 - g.damping } ∧
      (g.add_edge x x).len = g.len + 1) := by
  refine ⟨?_, ?_, ?_, ?_⟩
  · intro hx
    exact ⟨by rw [goc_fresh hx], by rw [goc_fresh hx], by rw [goc_fresh hx],
      by rw [goc_fresh hx]⟩
  · have h1 : (g.add_edge s t).edges =
        ((g.get_or_create_node s).2.get_or_create_node t).2.edges + 1 := by
      rw [add_edge_eq]
    rw [h1, goc_edges, goc_edges]
  · have hs1 := goc_fst_lt h s
    have hs2 : (g.get_or_create_node s).1 <
        ((g.get_or_create_node s).2.get_or_create_node t).2.nodes.length :=
      lt_of_lt_of_le hs1 (goc_len_le _ t)
    have ht2 := goc_fst_lt (WF_goc h s) t
    obtain ⟨ns, hns⟩ : ∃ m : GraphNode T,
        ((g.get_or_create_node s).2.get_or_create_node t).2.nodes[(g.get_or_create_node s).1]? = some m :=
      ⟨_, List.getElem?_eq_getElem hs2⟩
    obtain ⟨nt, hnt⟩ : ∃ m : GraphNode T,
        ((g.get_or_create_node s).2.get_or_create_node t).2.nodes[((g.get_or_create_node s).2.get_or_create_node t).1]? = some m :=
      ⟨_, List.getElem?_eq_getElem ht2⟩
    have hnodes : (g.add_edge s t).nodes =
        modifyIdx
          (modifyIdx ((g.get_or_create_node s).2.get_or_create_node t).2.nodes
            (g.get_or_create_node s).1 bumpOutgoing)
          ((g.get_or_create_node s).2.get_or_create_node t).1
          (pushIncoming (g.get_or_create_node s).1) := by
      rw [add_edge_eq]
    by_cases hst : (g.get_or_create_node s).1 =
        ((g.get_or_create_node s).2.get_or_create_node t).1
    · have hee : ns = nt := by
        rw [hst] at hns
        rw [hns] at hnt
        exact Option.some_inj.mp hnt
      refine ⟨ns, nt,
        pushIncoming (g.get_or_create_node s).1 (bumpOutgoing ns),
        pushIncoming (g.get_or_create_node s).1 (bumpOutgoing ns),
        hns, hnt, ?_, ?_, rfl, ?_⟩
      · rw [hnodes, hst, getElem?_modifyIdx_self, ← hst, getElem?_modifyIdx_self,
          hst, ← hst, hns]
        rfl
      · rw [hnodes, ← hst, getElem?_modifyIdx_self, getElem?_modifyIdx_self, hns]
        rfl
      · rw [← hee]
        rfl
    · refine ⟨ns, nt, bumpOutgoing ns,
        pushIncoming (g.get_or_create_node s).1 nt,
        hns, hnt, ?_, ?_, rfl, rfl⟩
      · rw [hnodes, getElem?_modifyIdx_ne _ _ hst, getElem?_modifyIdx_self, hns]
        rfl
      · rw [hnodes, getElem?_modifyIdx_self,
          getElem?_modifyIdx_ne _ _ (fun hc => hst hc.symm), hnt]
        rfl
  · intro hx
    have hxe := goc_fresh hx
    have h2 : List.lookup x ((x, g.nodes.length) :: g.node_positions) =
        some g.nodes.length := by
      simp [List.lookup]
    have hnodes : (g.add_edge x x).nodes =
        modifyIdx
          (modifyIdx
            (g.nodes ++ [{ node := x, incoming_edges := [], outgoing_edges := 0,
                           score := 1 - g.damping }])
            g.nodes.length bumpOutgoing)
          g.nodes.length (pushIncoming g.nodes.length) := by
      rw [add_edge_eq, hxe]
      dsimp only
      rw [goc_known h2]
    constructor
    · rw [hnodes]
      rw [getElem?_modifyIdx_self, getElem?_modifyIdx_self,
        List.getElem?_concat_length]
      rfl
    · have hlen : (g.add_edge x x).len = (g.add_edge x x).nodes.length := rfl
      rw [hlen, hnodes]
      rw [modifyIdx_length, modifyIdx_length]
      simp [Pagerank.len]

theorem claim_C6_witness :
    ((Pagerank.new (T := String)).add_edge "a" "b").edges =
        (Pagerank.new (T := String)).edges + 1 ∧
    ((Pagerank.new (T := String)).add_edge "c" "c").len =
        (Pagerank.new (T := String)).len + 1 :=
  ⟨(claim_C6 (Pagerank.new (T := String)) "a" "b" "c" WF_new).2.1,
    ((claim_C6 (Pagerank.new (T := String)) "a" "b" "c" WF_new).2.2.2 (by decide)).2⟩

/-! ### First-seen order of identifiers (claim C7) -/

theorem lookup_cons_self {T : Type} [DecidableEq T] (a : T) (b : ℕ)
    (l : List (T × ℕ)) : List.lookup a ((a, b) :: l) = some b := by
  simp [List.lookup]

theorem lookup_cons_ne {T : Type} [DecidableEq T] {x a : T} (b : ℕ)
    (l : List (T × ℕ)) (h : x ≠ a) :
    List.lookup x ((a, b) :: l) = List.lookup x l := by
  rw [List.lookup, show (x == a) = false from beq_eq_false_iff_ne.mpr h]

theorem mem_of_idx {α : Type} {l : List α} {a : α} {i : ℕ}
    (h : l[i]? = some a) : a ∈ l := by
  obtain ⟨hlt, rfl⟩ := List.getElem?_eq_some_iff.mp h
  exact List.getElem_mem _

theorem idx_of_mem {α : Type} {l : List α} {a : α} (h : a ∈ l) :
    ∃ i : ℕ, l[i]? = some a := by
  obtain ⟨i, hi⟩ := List.getElem_of_mem h
  exact ⟨i, by rw [List.getElem?_eq_getElem]; exact congrArg some hi.2⟩

theorem firstSeen_append_single {T : Type} [DecidableEq T] (l : List T) (y : T) :
    firstSeen (l ++ [y]) = addFirstSeen (firstSeen l) y := by
  unfold firstSeen
  rw [List.foldl_append]
  rfl

theorem mem_firstSeen_aux {T : Type} [DecidableEq T] (l : List T) :
    ∀ (acc : List T) (x : T), x ∈ l.foldl addFirstSeen acc ↔ x ∈ acc ∨ x ∈ l := by
  induction l with
  | nil => intro acc x; simp
  | cons y l ih =>
      intro acc x
      rw [List.foldl_cons, ih]
      have hadd : x ∈ addFirstSeen acc y ↔ x ∈ acc ∨ x = y := by
        unfold addFirstSeen
        by_cases hy : y ∈ acc
        · rw [if_pos hy]
          constructor
          · exact Or.inl
          · rintro (hx | rfl)
            · exact hx
            · exact hy
        · rw [if_neg hy]
          simp
      rw [hadd]
      simp [or_assoc]

theorem mem_firstSeen {T : Type} [DecidableEq T] (l : List T) (x : T) :
    x ∈ firstSeen l ↔ x ∈ l := by
  unfold firstSeen
  rw [mem_firstSeen_aux]
  simp

theorem nodup_firstSeen_aux {T : Type} [DecidableEq T] (l : List T) :
    ∀ acc : List T, acc.Nodup → (l.foldl addFirstSeen acc).Nodup := by
  induction l with
  | nil => intro acc h; exact h
  | cons y l ih =>
      intro acc h
      rw [List.foldl_cons]
      apply ih
      unfold addFirstSeen
      by_cases hy : y ∈ acc
      · rw [if_pos hy]; exact h
      · rw [if_neg hy]
        simp [List.nodup_append, h, hy]

theorem nodup_firstSeen {T : Type} [DecidableEq T] (l : List T) :
    (firstSeen l).Nodup :=
  nodup_firstSeen_aux l [] (by simp)

theorem getElem?_append_single {α : Type} (l : List α) (y : α) (i : ℕ) :
    (l ++ [y])[i]? =
      if i < l.length then l[i]? else (if i = l.length then some y else none) := by
  rcases Nat.lt_trichotomy i l.length with h | h | h
  · rw [if_pos h, List.getElem?_append_left h]
  · subst h
    rw [if_neg (lt_irrefl _), if_pos rfl, List.getElem?_concat_length]
  · rw [if_neg (by omega), if_neg (by omega), List.getElem?_eq_none]
    simp only [List.length_append, List.length_cons, List.length_nil]
    omega

theorem map_node_modifyIdx {T : Type} {f : GraphNode T → GraphNode T}
    (hf : ∀ a : GraphNode T, (f a).node = a.node) (l : List (GraphNode T)) (i : ℕ) :
    (modifyIdx l i f).map GraphNode.node = l.map GraphNode.node := by
  induction l generalizing i with
  | nil => rfl
  | cons x xs ih =>
      cases i with
      | zero => simp [modifyIdx, hf]
      | succ n => simpa [modifyIdx] using ih n

theorem goc_rep {T : Type} [DecidableEq T] {g : Pagerank T} {seen : List T}
    (h1 : g.nodes.map GraphNode.node = firstSeen seen)
    (h2 : ∀ (x : T) (i : ℕ),
      g.node_positions.lookup x = some i ↔ (firstSeen seen)[i]? = some x)
    (y : T) :
    (g.get_or_create_node y).2.nodes.map GraphNode.node =
        firstSeen (seen ++ [y]) ∧
      ∀ (x : T) (i : ℕ),
        (g.get_or_create_node y).2.node_positions.lookup x = some i ↔
          (firstSeen (seen ++ [y]))[i]? = some x := by
  rw [firstSeen_append_single]
  cases hl : g.node_positions.lookup y with
  | some v =>
      have hy : y ∈ firstSeen seen := mem_of_idx ((h2 y v).mp hl)
      rw [goc_known hl]
      unfold addFirstSeen
      rw [if_pos hy]
      exact ⟨h1, h2⟩
  | none =>
      have hy : y ∉ firstSeen seen := by
        intro hmem
        obtain ⟨i, hi⟩ := idx_of_mem hmem
        have := (h2 y i).mpr hi
        rw [hl] at this
        cases this
      rw [goc_fresh hl]
      unfold addFirstSeen
      rw [if_neg hy]
      have hL : g.nodes.length = (firstSeen seen).length := by
        rw [← h1, List.length_map]
      constructor
      · dsimp only
        rw [List.map_append, h1]
        rfl
      · intro x i
        dsimp only
        by_cases heq : x = y
        · subst heq
          rw [lookup_cons_self]
          constructor
          · intro hli
            have : g.nodes.length = i := Option.some_inj.mp hli
            subst this
            rw [hL, List.getElem?_concat_length]
          · intro hri
            rw [getElem?_append_single] at hri
            by_cases hlt : i < (firstSeen seen).length
            · rw [if_pos hlt] at hri
              exact absurd (mem_of_idx hri) hy
            · rw [if_neg hlt] at hri
              by_cases hie : i = (firstSeen seen).length
              · rw [hL, hie]
              · rw [if_neg hie] at hri
                cases hri
        · rw [lookup_cons_ne _ _ heq, h2 x i, getElem?_append_single]
          constructor
          · intro hfs
            have hlt : i < (firstSeen seen).length := by
              obtain ⟨hlt, _⟩ := List.getElem?_eq_some_iff.mp hfs
              exact hlt
            rw [if_pos hlt]
            exact hfs
          · intro hri
            by_cases hlt : i < (firstSeen seen).length
            · rw [if_pos hlt] at hri
              exact hri
            · rw [if_neg hlt] at hri
              by_cases hie : i = (firstSeen seen).length
              · rw [if_pos hie] at hri
                exact absurd (Option.some_inj.mp hri).symm heq
              · rw [if_neg hie] at hri
                cases hri

theorem add_edge_rep {T : Type} [DecidableEq T] {g : Pagerank T} {seen : List T}
    (h1 : g.nodes.map GraphNode.node = firstSeen seen)
    (h2 : ∀ (x : T) (i : ℕ),
      g.node_positions.lookup x = some i ↔ (firstSeen seen)[i]? = some x)
    (a b : T) :
    (g.add_edge a b).nodes.map GraphNode.node = firstSeen (seen ++ [a, b]) ∧
      ∀ (x : T) (i : ℕ),
        (g.add_edge a b).node_positions.lookup x = some i ↔
          (firstSeen (seen ++ [a, b]))[i]? = some x := by
  obtain ⟨h1a, h2a⟩ := goc_rep h1 h2 a
  obtain ⟨h1b, h2b⟩ := goc_rep h1a h2a b
  have hassoc : (seen ++ [a]) ++ [b] = seen ++ [a, b] := by
    rw [List.append_assoc]
    rfl
  rw [hassoc] at h1b h2b
  constructor
  · have hmap : (g.add_edge a b).nodes.map GraphNode.node =
        ((g.get_or_create_node a).2.get_or_create_node b).2.nodes.map GraphNode.node := by
      rw [add_edge_eq]
      dsimp only
      rw [map_node_modifyIdx (f := pushIncoming (g.get_or_create_node a).1) (fun n => rfl),
        map_node_modifyIdx (f := bumpOutgoing) (fun n => rfl)]
    rw [hmap]
    exact h1b
  · have hpos : (g.add_edge a b).node_positions =
        ((g.get_or_create_node a).2.get_or_create_node b).2.node_positions := by
      rw [add_edge_eq]
    rw [hpos]
    exact h2b

theorem buildGraph_aux {T : Type} [DecidableEq T] (es : List (T × T)) :
    ∀ (g : Pagerank T) (seen : List T),
      g.nodes.map GraphNode.node = firstSeen seen →
      (∀ (x : T) (i : ℕ),
        g.node_positions.lookup x = some i ↔ (firstSeen seen)[i]? = some x) →
      (es.foldl (fun g e => g.add_edge e.1 e.2) g).nodes.map GraphNode.node =
          firstSeen (seen ++ endpointStream es) ∧
        ∀ (x : T) (i : ℕ),
          (es.foldl (fun g e => g.add_edge e.1 e.2) g).node_positions.lookup x = some i ↔
            (firstSeen (seen ++ endpointStream es))[i]? = some x := by
  induction es with
  | nil =>
      intro g seen h1 h2
      simpa [endpointStream] using ⟨h1, h2⟩
  | cons e es ih =>
      intro g seen h1 h2
      obtain ⟨h1', h2'⟩ := add_edge_rep h1 h2 e.1 e.2
      have hres := ih (g.add_edge e.1 e.2) (seen ++ [e.1, e.2]) h1' h2'
      have hlist : (seen ++ [e.1, e.2]) ++ endpointStream es =
          seen ++ endpointStream (e :: es) := by
        rw [List.append_assoc]
        rfl
      rw [hlist] at hres
      exact hres

/-- Claim C7: after any sequence of `add_edge` calls from a fresh graph,
the node count equals the number of distinct identifiers that appeared as
an endpoint (the length of the duplicate-free first-seen list of the
endpoint stream), the node store lists those identifiers in first-seen
order, and the position map sends each identifier to exactly the index at
which it sits in that list — consecutive positions from 0, never reused
or reassigned. -/
theorem claim_C7 {T : Type} [DecidableEq T] (es : List (T × T)) :
    (buildGraph es).len = (firstSeen (endpointStream es)).length ∧
    (buildGraph es).nodes.map GraphNode.node = firstSeen (endpointStream es) ∧
    (firstSeen (endpointStream es)).Nodup ∧
    (∀ x : T, x ∈ firstSeen (endpointStream es) ↔ x ∈ endpointStream es) ∧
    ∀ (x : T) (i : ℕ),
      (buildGraph es).node_positions.lookup x = some i ↔
        (firstSeen (endpointStream es))[i]? = some x := by
  have hbase2 : ∀ (x : T) (i : ℕ),
      (Pagerank.new (T := T)).node_positions.lookup x = some i ↔
        (firstSeen ([] : List T))[i]? = some x := by
    intro x i
    constructor
    · intro hc
      simp [Pagerank.new, List.lookup] at hc
    · intro hc
      simp [firstSeen] at hc
  have h := buildGraph_aux es (Pagerank.new (T := T)) [] rfl hbase2
  rw [List.nil_append] at h
  have hfold : buildGraph es =
      es.foldl (fun g e => g.add_edge e.1 e.2) (Pagerank.new (T := T)) := rfl
  rw [← hfold] at h
  refine ⟨?_, h.1, nodup_firstSeen _, mem_firstSeen _, h.2⟩
  have hlen : (buildGraph es).len = ((buildGraph es).nodes.map GraphNode.node).length := by
    rw [List.length_map]
    rfl
  rw [hlen, h.1]

theorem claim_C7_witness :
    (buildGraph [("a", "b"), ("a", "c")]).len =
      (firstSeen (endpointStream [("a", "b"), ("a", "c")])).length :=
  (claim_C7 [("a", "b"), ("a", "c")]).1
